import Mathlib

/-!
Verification of the schedule model and derived-view engine of the timetable
widget (source: `src/OAA.tsx`).  The relevant fragment of the program is
embedded shallowly: `HH:MM` strings are Lean `String`s, JS numbers appearing
as minute counts are `Nat`, fractional widths are `Rat`, and the study log is
a key-to-value map modelled as a function `String -> Option Rat`.  JS `NaN`
propagation from malformed time strings is modelled with `Option`.
-/

namespace OAA

/-! ## Time utilities (`toMin`, `fromMin`) -/

/-- Digit test on a character by its code unit (48..57 are the ASCII digits);
this is how JS `Number(s)` classifies decimal-digit characters. -/
def isDigitCh (c : Char) : Bool :=
  decide (48 ≤ c.toNat) && decide (c.toNat ≤ 57)

/-- Numeric value of an ASCII digit character. -/
def dv (c : Char) : Nat := c.toNat - 48

/-- JS `Number(s)` restricted to the strings the program feeds it: the empty
string gives 0, a string of decimal digits is read in base 10, and anything
else is NaN (`none`). -/
def jsNumber (l : List Char) : Option Nat :=
  if l.all isDigitCh then some (l.foldl (fun acc c => 10 * acc + dv c) 0) else none

/-- JS `s.split(":")` at the character-list level (code-unit comparison with
`:`, whose code unit is 58). -/
def splitColon : List Char → List (List Char)
  | [] => [[]]
  | c :: rest =>
    let r := splitColon rest
    if c.toNat = 58 then [] :: r
    else
      match r with
      | [] => [[c]]
      | x :: xs => (c :: x) :: xs

/-- The function `toMin` from the source, with NaN as `none`: split on `:`, destructure the
first two pieces as hours and minutes, return `h*60+m`.  A string without `:`
gives NaN in JS (the minute component is `undefined`). -/
def toMinOpt (s : String) : Option Nat :=
  match splitColon s.data with
  | h :: m :: _ => do
    let hv ← jsNumber h
    let mv ← jsNumber m
    pure (hv * 60 + mv)
  | _ => none

/-- Total wrapper for `toMin`; every claim below constrains its input to
well-formed `HH:MM` strings, on which the `Option` layer never fires. -/
def toMin (s : String) : Nat := (toMinOpt s).getD 0

/-- The ASCII digit character of a digit value. -/
def dChar (d : Nat) : Char := Char.ofNat (48 + d)

/-- Decimal rendering of a natural number (the embedding of JS `String(n)`),
with explicit fuel so that it is structurally recursive; `natDigits` below
always supplies enough fuel. -/
def natDigitsAux : Nat → Nat → List Char
  | 0, _ => []
  | f + 1, n => if n < 10 then [dChar n] else natDigitsAux f (n / 10) ++ [dChar (n % 10)]

/-- Decimal digit list of a natural number, most significant first. -/
def natDigits (n : Nat) : List Char := natDigitsAux (n + 1) n

/-- JS `s.padStart(k, "0")` at the character-list level. -/
def padTo (k : Nat) (l : List Char) : List Char :=
  List.replicate (k - l.length) '0' ++ l

/-- The function `fromMin` from the source: `HH:MM`, both components zero-padded to two
digits. -/
def fromMin (m : Nat) : String :=
  ⟨padTo 2 (natDigits (m / 60)) ++ ':' :: padTo 2 (natDigits (m % 60))⟩

/-! ## Basic digit lemmas -/

theorem dChar_toNat {d : Nat} (h : d < 10) : (dChar d).toNat = 48 + d := by
  have key : ∀ x : Fin 10, (dChar x.1).toNat = 48 + x.1 := by decide
  exact key ⟨d, h⟩

theorem isDigitCh_dChar {d : Nat} (h : d < 10) : isDigitCh (dChar d) = true := by
  simp only [isDigitCh, dChar_toNat h, Bool.and_eq_true, decide_eq_true_eq]
  omega

theorem dv_dChar {d : Nat} (h : d < 10) : dv (dChar d) = d := by
  simp only [dv, dChar_toNat h]
  omega

theorem natDigits_of_lt {n : Nat} (h : n < 10) : natDigits n = [dChar n] := by
  simp [natDigits, natDigitsAux, h]

theorem natDigits_of_two {n : Nat} (h1 : 10 ≤ n) (h2 : n < 100) :
    natDigits n = [dChar (n / 10), dChar (n % 10)] := by
  obtain ⟨k, rfl⟩ : ∃ k, n = k + 1 := ⟨n - 1, by omega⟩
  simp only [natDigits, natDigitsAux, if_neg (by omega : ¬ k + 1 < 10)]
  rw [if_pos (by omega : (k + 1) / 10 < 10)]
  rfl

theorem padTo_natDigits {n : Nat} (h : n < 100) :
    padTo 2 (natDigits n) = [dChar (n / 10), dChar (n % 10)] := by
  by_cases h10 : n < 10
  · rw [natDigits_of_lt h10]
    have hd : n / 10 = 0 := Nat.div_eq_of_lt h10
    have hm : n % 10 = n := Nat.mod_eq_of_lt h10
    rw [hd, hm]
    rfl
  · rw [natDigits_of_two (by omega) h]
    rfl

theorem splitColon_pair (a b d e : Char) (ha : a.toNat ≠ 58) (hb : b.toNat ≠ 58)
    (hd : d.toNat ≠ 58) (he : e.toNat ≠ 58) :
    splitColon [a, b, ':', d, e] = [[a, b], [d, e]] := by
  have hc : (':' : Char).toNat = 58 := by decide
  simp [splitColon, ha, hb, hc, hd, he]

theorem jsNumber_pair {x y : Nat} (hx : x < 10) (hy : y < 10) :
    jsNumber [dChar x, dChar y] = some (10 * x + y) := by
  simp [jsNumber, isDigitCh_dChar hx, isDigitCh_dChar hy, dv_dChar hx, dv_dChar hy]

theorem toMin_digits {p q r s : Nat} (hp : p < 10) (hq : q < 10) (hr : r < 10)
    (hs : s < 10) :
    toMin ⟨[dChar p, dChar q, ':', dChar r, dChar s]⟩ = (10 * p + q) * 60 + (10 * r + s) := by
  have hnot : ∀ t : Nat, t < 10 → (dChar t).toNat ≠ 58 := by
    intro t ht
    rw [dChar_toNat ht]
    omega
  unfold toMin toMinOpt
  rw [show (⟨[dChar p, dChar q, ':', dChar r, dChar s]⟩ : String).data
        = [dChar p, dChar q, ':', dChar r, dChar s] from rfl]
  rw [splitColon_pair _ _ _ _ (hnot p hp) (hnot q hq) (hnot r hr) (hnot s hs)]
  simp [jsNumber_pair hp hq, jsNumber_pair hr hs]

/-- C6: for every minute value in `[0, 1439]`, formatting with `fromMin` and
parsing back with `toMin` is the identity: `parseTime(formatTime(m)) = m`. -/
theorem claim_C6_roundtrip (m : Nat) (h : m ≤ 1439) : toMin (fromMin m) = m := by
  have hh : m / 60 < 100 := by omega
  have hm : m % 60 < 100 := by
    have := Nat.mod_lt m (show 0 < 60 by omega)
    omega
  unfold fromMin
  rw [padTo_natDigits hh, padTo_natDigits hm]
  rw [show ([dChar (m / 60 / 10), dChar (m / 60 % 10)] ++
        ':' :: [dChar (m % 60 / 10), dChar (m % 60 % 10)])
      = [dChar (m / 60 / 10), dChar (m / 60 % 10), ':',
         dChar (m % 60 / 10), dChar (m % 60 % 10)] from rfl]
  rw [toMin_digits (by omega) (by omega) (by omega) (by omega)]
  have d1 := Nat.div_add_mod m 60
  have d2 := Nat.div_add_mod (m / 60) 10
  have d3 := Nat.div_add_mod (m % 60) 10
  omega

/-- Witness for C6 at the concrete minute value 150 (02:30). -/
theorem claim_C6_roundtrip_witness : 150 ≤ 1439 ∧ toMin (fromMin 150) = 150 :=
  ⟨by decide, claim_C6_roundtrip 150 (by decide)⟩

/-! ## Lexicographic string order and well-formed `HH:MM` strings -/

/-- Strict lexicographic order on character lists by code unit, the order
that `a.localeCompare(b)` induces on the `HH:MM` strings the program compares
(digits and `:` collate in code-unit order in every locale). -/
def lexLt : List Char → List Char → Bool
  | [], [] => false
  | [], _ :: _ => true
  | _ :: _, [] => false
  | a :: as, b :: bs =>
    if a.toNat < b.toNat then true
    else if b.toNat < a.toNat then false
    else lexLt as bs

/-- Well-formed zero-padded `HH:MM` time string: exactly five characters,
digit, digit, colon, digit, digit, with hour below 24 and minute below 60. -/
def validHHMM (s : String) : Bool :=
  match s.data with
  | [a, b, c, d, e] =>
    decide (48 ≤ a.toNat) && decide (a.toNat ≤ 57) &&
    decide (48 ≤ b.toNat) && decide (b.toNat ≤ 57) &&
    decide (c.toNat = 58) &&
    decide (48 ≤ d.toNat) && decide (d.toNat ≤ 57) &&
    decide (48 ≤ e.toNat) && decide (e.toNat ≤ 57) &&
    decide (10 * (a.toNat - 48) + (b.toNat - 48) ≤ 23) &&
    decide (10 * (d.toNat - 48) + (e.toNat - 48) ≤ 59)
  | _ => false

theorem validHHMM_elim {s : String} (h : validHHMM s = true) :
    ∃ a b c d e, s.data = [a, b, c, d, e] ∧
      48 ≤ a.toNat ∧ a.toNat ≤ 57 ∧ 48 ≤ b.toNat ∧ b.toNat ≤ 57 ∧
      c.toNat = 58 ∧
      48 ≤ d.toNat ∧ d.toNat ≤ 57 ∧ 48 ≤ e.toNat ∧ e.toNat ≤ 57 ∧
      10 * (a.toNat - 48) + (b.toNat - 48) ≤ 23 ∧
      10 * (d.toNat - 48) + (e.toNat - 48) ≤ 59 := by
  unfold validHHMM at h
  rcases hsd : s.data with - | ⟨a, - | ⟨b, - | ⟨c, - | ⟨d, - | ⟨e, - | ⟨f, rest⟩⟩⟩⟩⟩⟩ <;>
      rw [hsd] at h <;>
      simp only [Bool.and_eq_true, decide_eq_true_eq, Bool.false_eq_true] at h
  exact ⟨a, b, c, d, e, rfl, by tauto⟩

theorem splitColon_five {a b c d e : Char} (ha : a.toNat ≠ 58) (hb : b.toNat ≠ 58)
    (hc : c.toNat = 58) (hd : d.toNat ≠ 58) (he : e.toNat ≠ 58) :
    splitColon [a, b, c, d, e] = [[a, b], [d, e]] := by
  simp [splitColon, ha, hb, hc, hd, he]

theorem toMin_of_valid {s : String} {a b c d e : Char}
    (hsd : s.data = [a, b, c, d, e])
    (ha1 : 48 ≤ a.toNat) (ha2 : a.toNat ≤ 57) (hb1 : 48 ≤ b.toNat) (hb2 : b.toNat ≤ 57)
    (hc : c.toNat = 58)
    (hd1 : 48 ≤ d.toNat) (hd2 : d.toNat ≤ 57) (he1 : 48 ≤ e.toNat) (he2 : e.toNat ≤ 57) :
    toMin s = (10 * (a.toNat - 48) + (b.toNat - 48)) * 60 +
      (10 * (d.toNat - 48) + (e.toNat - 48)) := by
  have hdig : ∀ x : Char, 48 ≤ x.toNat → x.toNat ≤ 57 → isDigitCh x = true := by
    intro x h1 h2
    simp [isDigitCh, h1, h2]
  unfold toMin toMinOpt
  rw [hsd, splitColon_five (by omega) (by omega) hc (by omega) (by omega)]
  simp [jsNumber, hdig a ha1 ha2, hdig b hb1 hb2, hdig d hd1 hd2, hdig e he1 he2, dv]

set_option maxHeartbeats 1000000 in
/-- Core of C9: on valid zero-padded `HH:MM` strings the strict lexicographic
string order coincides with the numeric order of the parsed minute values. -/
theorem lexLt_iff_toMin_lt {s t : String} (hs : validHHMM s = true)
    (ht : validHHMM t = true) :
    (lexLt s.data t.data = true ↔ toMin s < toMin t) := by
  obtain ⟨a, b, c, d, e, hsd, ha1, ha2, hb1, hb2, hc, hd1, hd2, he1, he2, hh, hm⟩ :=
    validHHMM_elim hs
  obtain ⟨a2, b2, c2, d2, e2, htd, ha12, ha22, hb12, hb22, hc2, hd12, hd22, he12, he22,
    hh2, hm2⟩ := validHHMM_elim ht
  rw [toMin_of_valid hsd ha1 ha2 hb1 hb2 hc hd1 hd2 he1 he2,
    toMin_of_valid htd ha12 ha22 hb12 hb22 hc2 hd12 hd22 he12 he22, hsd, htd]
  simp only [lexLt]
  split_ifs <;> simp <;> omega

/-! ## Stable sorting with a boolean comparator

JS `Array.prototype.sort` with a consistent comparator produces the stable
sorted permutation of its input; insertion sort below is that specification. -/

/-- Insert `a` into `l` before the first element `b` with `le a b`. -/
def insertLe (le : α → α → Bool) (a : α) : List α → List α
  | [] => [a]
  | b :: bs => if le a b then a :: b :: bs else b :: insertLe le a bs

/-- Stable insertion sort with comparator `le`. -/
def sortLe (le : α → α → Bool) : List α → List α
  | [] => []
  | a :: as => insertLe le a (sortLe le as)

theorem mem_insertLe {le : α → α → Bool} {a x : α} {l : List α} :
    x ∈ insertLe le a l ↔ x = a ∨ x ∈ l := by
  induction l with
  | nil => simp [insertLe]
  | cons b bs ih =>
    by_cases h : le a b
    · simp [insertLe, h]
    · simp [insertLe, h, ih]
      tauto

theorem mem_sortLe {le : α → α → Bool} {x : α} {l : List α} :
    x ∈ sortLe le l ↔ x ∈ l := by
  induction l with
  | nil => simp [sortLe]
  | cons a as ih =>
    simp [sortLe, mem_insertLe, ih]

theorem sortLe_eq_nil_iff {le : α → α → Bool} {l : List α} :
    sortLe le l = [] ↔ l = [] := by
  constructor
  · intro h
    rcases l with - | ⟨a, as⟩
    · rfl
    · have : a ∈ sortLe le (a :: as) := mem_sortLe.mpr (by simp)
      rw [h] at this
      simp at this
  · intro h
    rw [h]
    rfl

theorem insertLe_congr {f g : α → α → Bool} {a : α} {l : List α}
    (h : ∀ b ∈ l, f a b = g a b) : insertLe f a l = insertLe g a l := by
  induction l with
  | nil => rfl
  | cons b bs ih =>
    have hb : f a b = g a b := h b (by simp)
    by_cases hfb : f a b
    · simp [insertLe, hfb, hb ▸ hfb]
    · have hgb : g a b = false := by
        rw [← hb]
        exact Bool.not_eq_true _ |>.mp hfb
      simp [insertLe, hfb, hgb]
      exact ih fun x hx => h x (by simp [hx])

theorem sortLe_congr {f g : α → α → Bool} {l : List α}
    (h : ∀ a ∈ l, ∀ b ∈ l, f a b = g a b) : sortLe f l = sortLe g l := by
  induction l with
  | nil => rfl
  | cons a as ih =>
    have htail : sortLe f as = sortLe g as :=
      ih fun x hx y hy => h x (by simp [hx]) y (by simp [hy])
    rw [sortLe, sortLe, htail]
    exact insertLe_congr fun b hb =>
      h a (by simp) b (by simp [mem_sortLe.mp hb])

/-! ## The class-entry data model -/

/-- A weekly class entry (`ClassItem` in the source); `endT` models the field
named `end` there, which is a reserved word in Lean.  `day` is the weekday
index 0 = Monday .. 6 = Sunday, `start` and `endT` are `HH:MM` strings. -/
structure ClassItem where
  id : String
  name : String
  color : String
  day : Nat
  start : String
  endT : String
deriving DecidableEq, Repr

/-- Ordering of entries by parsed start minute (propositional form). -/
def startLe (a b : ClassItem) : Prop := toMin a.start ≤ toMin b.start

/-- The comparator `(a, b) => a.start.localeCompare(b.start)` viewed as a
boolean "less or equal" on entries. -/
def lexLeB (a b : ClassItem) : Bool := !(lexLt b.start.data a.start.data)

/-- The comparator `(a, b) => toMin(a.start) - toMin(b.start)` viewed as a
boolean "less or equal" on entries. -/
def numLeB (a b : ClassItem) : Bool := decide (toMin a.start ≤ toMin b.start)

theorem lexLeB_eq_numLeB {a b : ClassItem} (ha : validHHMM a.start = true)
    (hb : validHHMM b.start = true) : lexLeB a b = numLeB a b := by
  have h := lexLt_iff_toMin_lt hb ha
  by_cases hlt : lexLt b.start.data a.start.data = true
  · have hord : toMin b.start < toMin a.start := h.mp hlt
    simp only [lexLeB, numLeB, hlt, Bool.not_true]
    symm
    simp only [decide_eq_false_iff_not]
    omega
  · have hord : ¬ toMin b.start < toMin a.start := fun hc => hlt (h.mpr hc)
    simp only [Bool.not_eq_true] at hlt
    simp only [lexLeB, numLeB, hlt, Bool.not_false]
    symm
    simp only [decide_eq_true_eq]
    omega

theorem sortLe_lex_eq_num {l : List ClassItem}
    (hv : ∀ c ∈ l, validHHMM c.start = true) :
    sortLe lexLeB l = sortLe numLeB l :=
  sortLe_congr fun a ha b hb => lexLeB_eq_numLeB (hv a ha) (hv b hb)

theorem pairwise_insertLe {a : ClassItem} {l : List ClassItem}
    (h : l.Pairwise startLe) : (insertLe numLeB a l).Pairwise startLe := by
  induction l with
  | nil => simp [insertLe, List.pairwise_cons]
  | cons b bs ih =>
    rw [List.pairwise_cons] at h
    by_cases hab : numLeB a b
    · have hle : toMin a.start ≤ toMin b.start := of_decide_eq_true hab
      rw [insertLe, if_pos hab, List.pairwise_cons]
      refine ⟨?_, List.pairwise_cons.mpr h⟩
      intro x hx
      rcases List.mem_cons.mp hx with rfl | hx
      · exact hle
      · exact le_trans hle (h.1 x hx)
    · have hgt : toMin b.start ≤ toMin a.start := by
        have := of_decide_eq_false (Bool.not_eq_true _ |>.mp hab)
        unfold numLeB at hab
        simp only [decide_eq_true_eq] at hab
        omega
      rw [insertLe, if_neg hab, List.pairwise_cons]
      refine ⟨?_, ih h.2⟩
      intro x hx
      rcases mem_insertLe.mp hx with rfl | hx
      · exact hgt
      · exact h.1 x hx

theorem pairwise_sortLe (l : List ClassItem) :
    (sortLe numLeB l).Pairwise startLe := by
  induction l with
  | nil => exact List.Pairwise.nil
  | cons a as ih => exact pairwise_insertLe ih

theorem find?_min_of_pairwise {p : ClassItem → Bool} {l : List ClassItem}
    {c : ClassItem} (hp : l.Pairwise startLe) (h : l.find? p = some c) :
    p c = true ∧ c ∈ l ∧
      ∀ d ∈ l, p d = true → toMin c.start ≤ toMin d.start := by
  induction l with
  | nil => simp at h
  | cons a tl ih =>
    rw [List.pairwise_cons] at hp
    by_cases hpa : p a
    · rw [List.find?_cons_of_pos _ hpa] at h
      obtain rfl : a = c := Option.some.inj h
      refine ⟨hpa, by simp, ?_⟩
      intro d hd _
      rcases List.mem_cons.mp hd with rfl | hd
      · exact le_refl _
      · exact hp.1 d hd
    · rw [List.find?_cons_of_neg _ hpa] at h
      obtain ⟨hc1, hc2, hc3⟩ := ih hp.2 h
      refine ⟨hc1, by simp [hc2], ?_⟩
      intro d hd hpd
      rcases List.mem_cons.mp hd with rfl | hd
      · exact absurd hpd hpa
      · exact hc3 d hd hpd

theorem head_min_of_pairwise {l : List ClassItem} {c : ClassItem}
    (hp : l.Pairwise startLe) (h : l.head? = some c) :
    c ∈ l ∧ ∀ d ∈ l, toMin c.start ≤ toMin d.start := by
  rcases l with - | ⟨a, tl⟩
  · simp at h
  · obtain rfl : a = c := Option.some.inj h
    rw [List.pairwise_cons] at hp
    refine ⟨by simp, ?_⟩
    intro d hd
    rcases List.mem_cons.mp hd with rfl | hd
    · exact le_refl _
    · exact hp.1 d hd

/-! ## Schedule model: classes for today, current class, next class -/

/-- The derived list `todayClasses` from the source: filter by weekday, then sort by the
string comparator `a.start.localeCompare(b.start)`. -/
def todayClasses (classes : List ClassItem) (dayIndex : Nat) : List ClassItem :=
  sortLe lexLeB (classes.filter fun c => c.day == dayIndex)

/-- The derived value `current` from the source: first entry of the sorted day list whose
half-open interval contains the current minute-of-day. -/
def current (classes : List ClassItem) (dayIndex minsNow : Nat) : Option ClassItem :=
  (todayClasses classes dayIndex).find? fun c =>
    decide (toMin c.start ≤ minsNow) && decide (minsNow < toMin c.endT)

/-- The derived value `next` from the source: first upcoming entry of the sorted day list, else
the first entry of the sorted list for tomorrow (`(dayIndex + 1) % 7`), else
nothing (`tmr || null`). -/
def next (classes : List ClassItem) (dayIndex minsNow : Nat) : Option ClassItem :=
  match (todayClasses classes dayIndex).filter (fun c => decide (minsNow < toMin c.start)) with
  | c :: _ => some c
  | [] => (sortLe lexLeB (classes.filter fun c => c.day == (dayIndex + 1) % 7)).head?

theorem todayClasses_pairwise (classes : List ClassItem) (dayIndex : Nat)
    (hv : ∀ c ∈ classes, validHHMM c.start = true) :
    (todayClasses classes dayIndex).Pairwise startLe := by
  have hvf : ∀ c ∈ classes.filter (fun c => c.day == dayIndex),
      validHHMM c.start = true :=
    fun c hc => hv c (List.mem_filter.mp hc).1
  rw [todayClasses, sortLe_lex_eq_num hvf]
  exact pairwise_sortLe _

theorem mem_todayClasses {classes : List ClassItem} {dayIndex : Nat}
    {x : ClassItem} :
    x ∈ todayClasses classes dayIndex ↔ x ∈ classes ∧ x.day = dayIndex := by
  rw [todayClasses, mem_sortLe]
  simp [List.mem_filter]

/-- C3: `currentClass` returns the first entry, in ascending start order
among entries of the current weekday, whose half-open interval
`[start, end)` contains the current minute-of-day (ties go to the earliest
start, first found); it returns nothing exactly when no entry of the current
weekday contains the current minute. -/
theorem claim_C3_currentClass (classes : List ClassItem) (dayIndex minsNow : Nat)
    (hv : ∀ c ∈ classes, validHHMM c.start = true) :
    (∀ c, current classes dayIndex minsNow = some c →
        c ∈ classes ∧ c.day = dayIndex ∧
        toMin c.start ≤ minsNow ∧ minsNow < toMin c.endT ∧
        ∀ d ∈ classes, d.day = dayIndex → toMin d.start ≤ minsNow →
          minsNow < toMin d.endT → toMin c.start ≤ toMin d.start) ∧
    (current classes dayIndex minsNow = none ↔
      ∀ d ∈ classes, d.day = dayIndex →
        ¬(toMin d.start ≤ minsNow ∧ minsNow < toMin d.endT)) := by
  have hpw := todayClasses_pairwise classes dayIndex hv
  constructor
  · intro c hc
    obtain ⟨hp, hcm, hmin⟩ := find?_min_of_pairwise hpw hc
    simp only [Bool.and_eq_true, decide_eq_true_eq] at hp
    obtain ⟨hmc, hdc⟩ := mem_todayClasses.mp hcm
    refine ⟨hmc, hdc, hp.1, hp.2, ?_⟩
    intro d hd hday hds hde
    exact hmin d (mem_todayClasses.mpr ⟨hd, hday⟩) (by simp [hds, hde])
  · rw [current, List.find?_eq_none]
    constructor
    · intro h d hd hday hcontra
      have := h d (mem_todayClasses.mpr ⟨hd, hday⟩)
      simp only [Bool.and_eq_true, decide_eq_true_eq] at this
      exact this ⟨hcontra.1, hcontra.2⟩
    · intro h x hx hpx
      simp only [Bool.and_eq_true, decide_eq_true_eq] at hpx
      obtain ⟨hxc, hxd⟩ := mem_todayClasses.mp hx
      exact h x hxc hxd ⟨hpx.1, hpx.2⟩

/-- The class of the running example: Math on Monday, 09:00 to 10:00. -/
def mathItem : ClassItem :=
  ⟨"id-math", "Math", "#3b82f6", 0, "09:00", "10:00"⟩

/-- Second class of the running example: Lit on Monday, 09:30 to 10:30. -/
def litItem : ClassItem :=
  ⟨"id-lit", "Lit", "#8b5cf6", 0, "09:30", "10:30"⟩

/-- Third class of the running example: PE on Monday, 10:15 to 11:00. -/
def peItem : ClassItem :=
  ⟨"id-pe", "PE", "#ef4444", 0, "10:15", "11:00"⟩

/-- Witness for C3: at 09:45 on a Monday with the Math class 09:00-10:00,
`currentClass` returns Math. -/
theorem claim_C3_currentClass_witness :
    current [mathItem] 0 585 = some mathItem ∧
    toMin mathItem.start ≤ 585 ∧ 585 < toMin mathItem.endT := by
  have h := claim_C3_currentClass [mathItem] 0 585 (by decide)
  have hc : current [mathItem] 0 585 = some mathItem := by decide
  obtain ⟨-, -, h3, h4, -⟩ := h.1 mathItem hc
  exact ⟨hc, h3, h4⟩

/-- C2: `nextClass` returns the earliest entry of the current weekday whose
start is strictly after the current minute; failing that, the earliest entry
of the next weekday (6 wraps to 0); and it is `null` exactly when the current
weekday has no later entry and the next weekday has no entry at all, however
many entries later weekdays have (single-day lookahead). -/
theorem claim_C2_nextClass (classes : List ClassItem) (dayIndex minsNow : Nat)
    (hv : ∀ c ∈ classes, validHHMM c.start = true) :
    (∀ c, next classes dayIndex minsNow = some c →
        c ∈ classes ∧
        ((c.day = dayIndex ∧ minsNow < toMin c.start ∧
            ∀ d ∈ classes, d.day = dayIndex → minsNow < toMin d.start →
              toMin c.start ≤ toMin d.start) ∨
         ((∀ d ∈ classes, d.day = dayIndex → toMin d.start ≤ minsNow) ∧
            c.day = (dayIndex + 1) % 7 ∧
            ∀ d ∈ classes, d.day = (dayIndex + 1) % 7 →
              toMin c.start ≤ toMin d.start))) ∧
    (next classes dayIndex minsNow = none ↔
      (∀ d ∈ classes, d.day = dayIndex → toMin d.start ≤ minsNow) ∧
      ∀ d ∈ classes, d.day ≠ (dayIndex + 1) % 7) := by
  have hpwT := todayClasses_pairwise classes dayIndex hv
  have hvM : ∀ c ∈ classes.filter (fun c => c.day == (dayIndex + 1) % 7),
      validHHMM c.start = true :=
    fun c hc => hv c (List.mem_filter.mp hc).1
  have hsortM := sortLe_lex_eq_num hvM
  have hpwM : (sortLe lexLeB
      (classes.filter fun c => c.day == (dayIndex + 1) % 7)).Pairwise startLe := by
    rw [hsortM]
    exact pairwise_sortLe _
  have hmemM : ∀ x : ClassItem,
      x ∈ sortLe lexLeB (classes.filter fun c => c.day == (dayIndex + 1) % 7) ↔
        x ∈ classes ∧ x.day = (dayIndex + 1) % 7 := by
    intro x
    rw [mem_sortLe]
    simp [List.mem_filter]
  have hmemUp : ∀ x : ClassItem,
      x ∈ (todayClasses classes dayIndex).filter
          (fun c => decide (minsNow < toMin c.start)) ↔
        x ∈ classes ∧ x.day = dayIndex ∧ minsNow < toMin x.start := by
    intro x
    rw [List.mem_filter, mem_todayClasses]
    simp
    tauto
  have hpwUp : ((todayClasses classes dayIndex).filter
      (fun c => decide (minsNow < toMin c.start))).Pairwise startLe :=
    hpwT.sublist (List.filter_sublist _)
  rcases hu : (todayClasses classes dayIndex).filter
      (fun c => decide (minsNow < toMin c.start)) with - | ⟨c0, rest⟩
  · -- no upcoming entry on the current weekday
    have hnext : next classes dayIndex minsNow =
        (sortLe lexLeB (classes.filter fun c =>
          c.day == (dayIndex + 1) % 7)).head? := by
      rw [next, hu]
    have hNoUp : ∀ d ∈ classes, d.day = dayIndex → toMin d.start ≤ minsNow := by
      intro d hd hday
      have := List.filter_eq_nil_iff.mp hu d (mem_todayClasses.mpr ⟨hd, hday⟩)
      simp only [decide_eq_true_eq] at this
      omega
    constructor
    · intro c hc
      rw [hnext] at hc
      obtain ⟨hcm, hmin⟩ := head_min_of_pairwise hpwM hc
      obtain ⟨hc1, hc2⟩ := (hmemM c).mp hcm
      exact ⟨hc1, Or.inr ⟨hNoUp, hc2, fun d hd hday =>
        hmin d ((hmemM d).mpr ⟨hd, hday⟩)⟩⟩
    · rw [hnext, List.head?_eq_none_iff]
      constructor
      · intro h
        refine ⟨hNoUp, ?_⟩
        intro d hd hday
        have : d ∈ sortLe lexLeB (classes.filter fun c =>
            c.day == (dayIndex + 1) % 7) := (hmemM d).mpr ⟨hd, hday⟩
        rw [h] at this
        simp at this
      · intro h
        rcases hl : sortLe lexLeB (classes.filter fun c =>
            c.day == (dayIndex + 1) % 7) with - | ⟨a, tl⟩
        · rfl
        · have ha : a ∈ sortLe lexLeB (classes.filter fun c =>
              c.day == (dayIndex + 1) % 7) := by
            rw [hl]
            simp
          obtain ⟨ha1, ha2⟩ := (hmemM a).mp ha
          exact absurd ha2 (h.2 a ha1)
  · -- the head of the filtered-and-sorted day list is the next class
    have hnext : next classes dayIndex minsNow = some c0 := by
      rw [next, hu]
    have hc0mem : c0 ∈ (todayClasses classes dayIndex).filter
        (fun c => decide (minsNow < toMin c.start)) := by
      rw [hu]
      simp
    have hc0min : ∀ d ∈ (todayClasses classes dayIndex).filter
        (fun c => decide (minsNow < toMin c.start)),
        toMin c0.start ≤ toMin d.start := by
      have := head_min_of_pairwise (hu ▸ hpwUp) (show (c0 :: rest).head? = some c0 from rfl)
      intro d hd
      exact this.2 d (hu ▸ hd)
    obtain ⟨hc1, hc2, hc3⟩ := (hmemUp c0).mp hc0mem
    constructor
    · intro c hc
      rw [hnext] at hc
      obtain rfl : c0 = c := Option.some.inj hc
      exact ⟨hc1, Or.inl ⟨hc2, hc3, fun d hd hday hup =>
        hc0min d ((hmemUp d).mpr ⟨hd, hday, hup⟩)⟩⟩
    · rw [hnext]
      constructor
      · intro h
        exact absurd h (by simp)
      · intro h
        exact absurd (h.1 c0 hc1 hc2) (by omega)

/-- A class on Wednesday (weekday 2), used to exhibit the single-day
lookahead of `next` from a Monday. -/
def wedItem : ClassItem :=
  ⟨"id-wed", "Chem", "#10b981", 2, "09:00", "10:00"⟩

/-- Witness for C2: at 08:00 on Monday the Math class is next; with only a
Wednesday class, `nextClass` on Monday is `null` even though a later weekday
has an entry. -/
theorem claim_C2_nextClass_witness :
    next [mathItem] 0 480 = some mathItem ∧ 480 < toMin mathItem.start ∧
    next [wedItem] 0 480 = none := by
  have h1 := claim_C2_nextClass [mathItem] 0 480 (by decide)
  have h2 := claim_C2_nextClass [wedItem] 0 480 (by decide)
  have hc : next [mathItem] 0 480 = some mathItem := by decide
  obtain ⟨-, hOr⟩ := h1.1 mathItem hc
  rcases hOr with ⟨-, hlt, -⟩ | ⟨hall, -, -⟩
  · exact ⟨hc, hlt, h2.2.mpr ⟨by decide, by decide⟩⟩
  · exact absurd (hall mathItem (by decide) (by decide)) (by decide)

/-- C9: on well-formed zero-padded `HH:MM` strings, lexicographic string
comparison orders entries exactly as the numeric minute value does, so the
string-sorted day lists and the numerically sorted overlap-layout input
agree. -/
theorem claim_C9_lex_numeric :
    (∀ s t : String, validHHMM s = true → validHHMM t = true →
      (lexLt s.data t.data = true ↔ toMin s < toMin t)) ∧
    (∀ l : List ClassItem, (∀ c ∈ l, validHHMM c.start = true) →
      sortLe lexLeB l = sortLe numLeB l) :=
  ⟨fun _ _ hs ht => lexLt_iff_toMin_lt hs ht, fun _ hv => sortLe_lex_eq_num hv⟩

/-- Witness for C9 on the concrete strings 09:30 and 10:15 and a concrete
two-entry list. -/
theorem claim_C9_lex_numeric_witness :
    (lexLt ("09:30" : String).data ("10:15" : String).data = true ↔
      toMin "09:30" < toMin "10:15") ∧
    sortLe lexLeB [litItem, mathItem] = sortLe numLeB [litItem, mathItem] :=
  ⟨claim_C9_lex_numeric.1 "09:30" "10:15" (by decide) (by decide),
    claim_C9_lex_numeric.2 [litItem, mathItem] (by decide)⟩

/-! ## Overlap layout engine (`getOverlapLayout`) -/

/-- Open-interval overlap test from the source:
`toMin(cls.start) < toMin(g.end) && toMin(cls.end) > toMin(g.start)`. -/
def overlapsB (x g : ClassItem) : Bool :=
  decide (toMin x.start < toMin g.endT) && decide (toMin x.endT > toMin g.start)

/-- Place one entry into the first existing group containing a member it
overlaps, appending a new singleton group when none does (the loop body of
`getOverlapLayout`). -/
def placeCls (cls : ClassItem) : List (List ClassItem) → List (List ClassItem)
  | [] => [[cls]]
  | g :: gs =>
    if g.any (fun x => overlapsB cls x) then (g ++ [cls]) :: gs
    else g :: placeCls cls gs

/-- The grouping pass of `getOverlapLayout` over an already sorted day list. -/
def buildGroups (l : List ClassItem) : List (List ClassItem) :=
  l.foldl (fun gs c => placeCls c gs) []

/-- Pair every element with its index, starting at `n`. -/
def enumFrom : Nat → List α → List (Nat × α)
  | _, [] => []
  | n, a :: as => (n, a) :: enumFrom (n + 1) as

/-- Concatenation of the images of a list-valued function. -/
def concatMapL (f : α → List β) : List α → List β
  | [] => []
  | a :: as => f a ++ concatMapL f as

/-- Per-group slot assignment from the source, in percent:
`width = 100 / count`, `left = (100 / count) * idx`. -/
def layoutForGroup (g : List ClassItem) : List (String × ℚ × ℚ) :=
  (enumFrom 0 g).map fun p => (p.2.id, (100 : ℚ) / g.length, ((100 : ℚ) / g.length) * p.1)

/-- The function `getOverlapLayout` from the source: sort the day entries by numeric start
minute, group them greedily by first-overlapping-group, then assign each
group member a percent width and left offset.  The result is the list of
`(id, width, left)` assignments in write order. -/
def getOverlapLayout (dayClasses : List ClassItem) : List (String × ℚ × ℚ) :=
  concatMapL layoutForGroup (buildGroups (sortLe numLeB dayClasses))

/-- Slot assignment written from the words of the spec: within a group of
size `k` the member at insertion index `i` receives width `1/k` and left
offset `i/k`. -/
def layoutForGroupSpec (g : List ClassItem) : List (String × ℚ × ℚ) :=
  (enumFrom 0 g).map fun p => (p.2.id, (1 : ℚ) / g.length, (p.1 : ℚ) / g.length)

/-- The layout engine as described by the spec, with fractional slots; the
source computes exactly 100 times these numbers. -/
def overlapLayoutSpec (dayClasses : List ClassItem) : List (String × ℚ × ℚ) :=
  concatMapL layoutForGroupSpec (buildGroups (sortLe numLeB dayClasses))

theorem map_concatMapL {f : α → List β} {h : β → γ} (l : List α) :
    (concatMapL f l).map h = concatMapL (fun a => (f a).map h) l := by
  induction l with
  | nil => rfl
  | cons a as ih => simp [concatMapL, ih]

theorem enumFrom_scale (k : ℚ) (g : List ClassItem) : ∀ n : Nat,
    (enumFrom n g).map (fun p => (p.2.id, (100 : ℚ) / k, ((100 : ℚ) / k) * (p.1 : ℚ))) =
    ((enumFrom n g).map (fun p => (p.2.id, (1 : ℚ) / k, (p.1 : ℚ) / k))).map
      (fun q => (q.1, 100 * q.2.1, 100 * q.2.2)) := by
  induction g with
  | nil => intro n; rfl
  | cons a as ih =>
    intro n
    simp only [enumFrom, List.map_cons, ih (n + 1)]
    have h1 : (100 : ℚ) / k = 100 * (1 / k) := by ring
    have h2 : ((100 : ℚ) / k) * (n : ℚ) = 100 * ((n : ℚ) / k) := by ring
    rw [h2, h1]

theorem layoutForGroup_eq (g : List ClassItem) :
    layoutForGroup g =
      (layoutForGroupSpec g).map (fun q => (q.1, 100 * q.2.1, 100 * q.2.2)) := by
  unfold layoutForGroup layoutForGroupSpec
  exact enumFrom_scale (g.length : ℚ) g 0

/-- C1: the layout engine sorts by start, groups greedily by overlap with the
first matching group, and within a group of size `k` assigns the member at
insertion index `i` the slot `(1/k, i/k)` (the source stores these numbers in
percent, i.e. scaled by 100); on the non-transitive example Math 09:00-10:00,
Lit 09:30-10:30, PE 10:15-11:00 all three entries land in a single group with
width `1/3` and left offsets `0`, `1/3`, `2/3` in start order. -/
theorem claim_C1_overlapLayout :
    (∀ l : List ClassItem, getOverlapLayout l =
      (overlapLayoutSpec l).map (fun q => (q.1, 100 * q.2.1, 100 * q.2.2))) ∧
    buildGroups (sortLe numLeB [mathItem, litItem, peItem]) =
      [[mathItem, litItem, peItem]] ∧
    overlapLayoutSpec [mathItem, litItem, peItem] =
      [("id-math", 1 / 3, 0), ("id-lit", 1 / 3, 1 / 3), ("id-pe", 1 / 3, 2 / 3)] := by
  have hg : buildGroups (sortLe numLeB [mathItem, litItem, peItem]) =
      [[mathItem, litItem, peItem]] := by decide
  refine ⟨?_, hg, ?_⟩
  · intro l
    unfold getOverlapLayout overlapLayoutSpec
    rw [map_concatMapL]
    congr 1
    funext g
    exact layoutForGroup_eq g
  · rw [overlapLayoutSpec, hg]
    simp only [concatMapL, layoutForGroupSpec, enumFrom, List.map_cons, List.map_nil,
      List.append_nil, mathItem, litItem, peItem, List.length_cons, List.length_nil]
    norm_num

/-! ## Grid bounds derivation (`minClassHour`, `maxClassHour`) -/

/-- JS `Math.ceil(x / 60)` on natural minute counts. -/
def ceilDiv60 (n : Nat) : Nat := (n + 59) / 60

/-- The derived value `minClassHour` from the source: 6 with no classes, otherwise
`Math.max(0, Math.min(...allStarts, 6))` where `allStarts` are the
`floor(start / 60)` hours. -/
def minClassHour (classes : List ClassItem) : Nat :=
  match classes with
  | [] => 6
  | _ => max 0 ((classes.map fun c => toMin c.start / 60).foldr min 6)

/-- The derived value `maxClassHour` from the source: 24 with no classes, otherwise
`Math.min(24, Math.max(...allEnds, 18) + 1)` where `allEnds` are the
`ceil(end / 60)` hours. -/
def maxClassHour (classes : List ClassItem) : Nat :=
  match classes with
  | [] => 24
  | _ => min 24 (((classes.map fun c => ceilDiv60 (toMin c.endT)).foldr max 18) + 1)

theorem foldr_min_le_init (l : List Nat) (b : Nat) : l.foldr min b ≤ b := by
  induction l with
  | nil => exact le_refl b
  | cons x xs ih => exact le_trans (min_le_right x _) ih

theorem init_le_foldr_max (l : List Nat) (b : Nat) : b ≤ l.foldr max b := by
  induction l with
  | nil => exact le_refl b
  | cons x xs ih => exact le_trans ih (le_max_right x _)

theorem foldr_min_mix (l : List Nat) : ∀ p q : Nat,
    l.foldr min (min p q) = min p (l.foldr min q) := by
  induction l with
  | nil => intro p q; rfl
  | cons x xs ih =>
    intro p q
    simp only [List.foldr_cons, ih p q, min_left_comm]

theorem foldr_max_mix (l : List Nat) : ∀ p q : Nat,
    l.foldr max (max p q) = max p (l.foldr max q) := by
  induction l with
  | nil => intro p q; rfl
  | cons x xs ih =>
    intro p q
    simp only [List.foldr_cons, ih p q, max_left_comm]

theorem foldr_min_absorb (b y : Nat) (ys : List Nat) :
    (y :: ys).foldr min b = min b ((y :: ys).foldr min y) := by
  symm
  calc min b ((y :: ys).foldr min y)
      = min b (min y (ys.foldr min y)) := rfl
    _ = min y (min b (ys.foldr min y)) := min_left_comm b y _
    _ = min y (ys.foldr min (min b y)) := by rw [foldr_min_mix]
    _ = min y (ys.foldr min (min y b)) := by rw [min_comm b y]
    _ = min y (min y (ys.foldr min b)) := by rw [foldr_min_mix]
    _ = min (min y y) (ys.foldr min b) := (min_assoc y y _).symm
    _ = min y (ys.foldr min b) := by rw [min_self]
    _ = (y :: ys).foldr min b := rfl

theorem foldr_max_absorb (b y : Nat) (ys : List Nat) :
    (y :: ys).foldr max b = max b ((y :: ys).foldr max y) := by
  symm
  calc max b ((y :: ys).foldr max y)
      = max b (max y (ys.foldr max y)) := rfl
    _ = max y (max b (ys.foldr max y)) := max_left_comm b y _
    _ = max y (ys.foldr max (max b y)) := by rw [foldr_max_mix]
    _ = max y (ys.foldr max (max y b)) := by rw [max_comm b y]
    _ = max y (max y (ys.foldr max b)) := by rw [foldr_max_mix]
    _ = max (max y y) (ys.foldr max b) := (max_assoc y y _).symm
    _ = max y (ys.foldr max b) := by rw [max_self]
    _ = (y :: ys).foldr max b := rfl

/-- C5: the visible grid bounds are data dependent: the lower bound is
`max(0, min(6, minimum over entries of floor(start/60)))`, the upper bound is
`min(24, max(18, maximum over entries of ceil(end/60)) + 1)`, the empty class
list defaults to the range 6 to 24, and consequently the lower bound never
exceeds 6 while the upper bound is always between 19 and 24. -/
theorem claim_C5_gridBounds :
    (minClassHour [] = 6 ∧ maxClassHour [] = 24) ∧
    (∀ l : List ClassItem,
      minClassHour l ≤ 6 ∧ 19 ≤ maxClassHour l ∧ maxClassHour l ≤ 24) ∧
    (∀ (c : ClassItem) (cs : List ClassItem),
      minClassHour (c :: cs) =
        max 0 (min 6 (((c :: cs).map fun x => toMin x.start / 60).foldr min
          (toMin c.start / 60))) ∧
      maxClassHour (c :: cs) =
        min 24 (max 18 (((c :: cs).map fun x => ceilDiv60 (toMin x.endT)).foldr max
          (ceilDiv60 (toMin c.endT))) + 1)) := by
  refine ⟨⟨rfl, rfl⟩, ?_, ?_⟩
  · intro l
    rcases l with - | ⟨c, cs⟩
    · exact ⟨by norm_num [minClassHour], by norm_num [maxClassHour], by
        norm_num [maxClassHour]⟩
    · refine ⟨?_, ?_, ?_⟩
      · show max 0 (((c :: cs).map fun x => toMin x.start / 60).foldr min 6) ≤ 6
        have h := foldr_min_le_init ((c :: cs).map fun x => toMin x.start / 60) 6
        omega
      · show 19 ≤ min 24 ((((c :: cs).map fun x => ceilDiv60 (toMin x.endT)).foldr
          max 18) + 1)
        have h := init_le_foldr_max ((c :: cs).map fun x => ceilDiv60 (toMin x.endT)) 18
        omega
      · show min 24 ((((c :: cs).map fun x => ceilDiv60 (toMin x.endT)).foldr
          max 18) + 1) ≤ 24
        exact min_le_left _ _
  · intro c cs
    constructor
    · show max 0 (((c :: cs).map fun x => toMin x.start / 60).foldr min 6) = _
      rw [List.map_cons, foldr_min_absorb]
    · show min 24 ((((c :: cs).map fun x => ceilDiv60 (toMin x.endT)).foldr
        max 18) + 1) = _
      rw [List.map_cons, foldr_max_absorb]

/-! ## Class editing (`saveClass`) -/

/-- JS whitespace test for the characters `trim` strips (space, tab, and the
ASCII line terminators). -/
def isWS (c : Char) : Bool :=
  c.toNat = 32 || c.toNat = 9 || c.toNat = 10 || c.toNat = 11 ||
  c.toNat = 12 || c.toNat = 13

/-- JS `s.trim()`: strip whitespace from both ends. -/
def trim (s : String) : String :=
  ⟨((s.data.dropWhile isWS).reverse.dropWhile isWS).reverse⟩

/-- Observable outcome of one `saveClass` call: the class collection
afterwards, whether `alert` was called (the only user-facing message in this
code path), and whether the modal was closed (which happens only on a
successful save). -/
structure SaveResult where
  classes : List ClassItem
  alerted : Bool
  closedModal : Bool
deriving DecidableEq, Repr

/-- The successful-save branch of `saveClass`: replace the entry with the
edited id, or append a new entry under a fresh id. -/
def applySave (editing : Option ClassItem) (tmp : ClassItem) (fresh : String)
    (classes : List ClassItem) : List ClassItem :=
  match editing with
  | some e => classes.map fun c => if c.id == e.id then { tmp with id := e.id } else c
  | none => classes ++ [{ tmp with id := fresh }]

/-- The handler `saveClass` from the source: a blank trimmed name returns silently, an
end time at or before the start time alerts and returns, and otherwise the
edit is applied and the modal closed. -/
def saveClass (editing : Option ClassItem) (tmp : ClassItem) (fresh : String)
    (classes : List ClassItem) : SaveResult :=
  if trim tmp.name = "" then ⟨classes, false, false⟩
  else if toMin tmp.endT ≤ toMin tmp.start then ⟨classes, true, false⟩
  else ⟨applySave editing tmp fresh classes, false, true⟩

/-- Edited form whose name is whitespace only. -/
def blankTmp : ClassItem := ⟨"", "   ", "#3b82f6", 0, "19:00", "20:00"⟩

/-- Counterexample to C7 as stated: a save whose trimmed name is empty is
rejected and leaves the collection unchanged, but produces no user-facing
message (`alert` is never called on this branch; the source simply
`return`s), contradicting the claim that both invalid cases are rejected
with a user-facing message. -/
theorem claim_C7_counterexample :
    trim blankTmp.name = "" ∧
    saveClass none blankTmp "fresh" [mathItem] = ⟨[mathItem], false, false⟩ ∧
    (saveClass none blankTmp "fresh" [mathItem]).alerted = false := by decide

/-- C7 as amended: an empty trimmed name is rejected silently (no message)
with the collection unchanged; an end time not after the start time is
rejected with a user-facing message with the collection unchanged (no
partial save in either case); a valid edit is applied, updating the entry
with the edited id or appending a new entry under the fresh id. -/
theorem claim_C7_saveClass (editing : Option ClassItem) (tmp : ClassItem)
    (fresh : String) (classes : List ClassItem) :
    (trim tmp.name = "" →
      saveClass editing tmp fresh classes = ⟨classes, false, false⟩) ∧
    (trim tmp.name ≠ "" → toMin tmp.endT ≤ toMin tmp.start →
      saveClass editing tmp fresh classes = ⟨classes, true, false⟩) ∧
    (trim tmp.name ≠ "" → toMin tmp.start < toMin tmp.endT →
      saveClass editing tmp fresh classes =
        ⟨applySave editing tmp fresh classes, false, true⟩) := by
  refine ⟨?_, ?_, ?_⟩
  · intro h
    simp only [saveClass]
    rw [if_pos h]
  · intro h1 h2
    simp only [saveClass]
    rw [if_neg h1, if_pos h2]
  · intro h1 h2
    simp only [saveClass]
    rw [if_neg h1, if_neg (by omega)]

/-- A valid new class draft. -/
def algebraTmp : ClassItem := ⟨"", "Algebra", "#3b82f6", 1, "08:00", "09:00"⟩

/-- A class draft whose end is before its start. -/
def badTimeTmp : ClassItem := ⟨"", "Algebra", "#3b82f6", 1, "09:00", "08:00"⟩

/-- Witness for C7 exercising all three branches at concrete inputs. -/
theorem claim_C7_saveClass_witness :
    saveClass none algebraTmp "f1" [] =
      ⟨[{ algebraTmp with id := "f1" }], false, true⟩ ∧
    saveClass none badTimeTmp "f1" [mathItem] = ⟨[mathItem], true, false⟩ ∧
    saveClass none blankTmp "f1" [mathItem] = ⟨[mathItem], false, false⟩ := by
  refine ⟨?_, ?_, ?_⟩
  · exact ((claim_C7_saveClass none algebraTmp "f1" []).2.2 (by decide)
      (by decide)).trans (by decide)
  · exact (claim_C7_saveClass none badTimeTmp "f1" [mathItem]).2.1 (by decide) (by decide)
  · exact (claim_C7_saveClass none blankTmp "f1" [mathItem]).1 (by decide)

/-! ## Study log (`setTodayMinutes`) -/

/-- JS `Math.round`: round half toward positive infinity. -/
def jsRound (q : ℚ) : ℤ := ⌊q + 1 / 2⌋

/-- The value actually stored by `setTodayMinutes`:
`Math.max(0, Math.min(24 * 60, Math.round(m)))`. -/
def storedMinutes (m : ℚ) : ℤ := max 0 (min 1440 (jsRound m))

/-- The mutation `setTodayMinutes` from the source:
`setStudyLog(prev => ({ ...prev, [todayKey]: clamped }))`, i.e. a pointwise
override of the previous log at the key of the current date. -/
def setTodayMinutes (log : String → Option ℚ) (todayKey : String) (m : ℚ) :
    String → Option ℚ :=
  fun k => if k = todayKey then some ((storedMinutes m : ℤ) : ℚ) else log k

/-- C8: writing the study minutes for a date stores exactly the requested
value rounded to the nearest integer (half rounds up, within one half of the
input) and clamped into `[0, 1440]`, overwriting whatever the log previously
held at that key; in particular a request of 1500 stores 1440. -/
theorem claim_C8_setTodayMinutes (log : String → Option ℚ) (todayKey : String)
    (m : ℚ) :
    setTodayMinutes log todayKey m todayKey = some ((storedMinutes m : ℤ) : ℚ) ∧
    0 ≤ storedMinutes m ∧ storedMinutes m ≤ 1440 ∧
    m - 1 / 2 < ((jsRound m : ℤ) : ℚ) ∧ ((jsRound m : ℤ) : ℚ) ≤ m + 1 / 2 ∧
    storedMinutes 1500 = 1440 := by
  refine ⟨by simp [setTodayMinutes], le_max_left _ _, ?_, ?_, ?_, ?_⟩
  · exact max_le (by norm_num) (min_le_left _ _)
  · have h := Int.sub_one_lt_floor (m + 1 / 2)
    unfold jsRound
    linarith
  · have h := Int.floor_le (m + 1 / 2)
    unfold jsRound
    linarith
  · have hfl : jsRound (1500 : ℚ) = 1500 := by
      unfold jsRound
      rw [Int.floor_eq_iff]
      constructor <;> norm_num
    unfold storedMinutes
    rw [hfl]
    omega

/-- C10: writing the minutes of the current date is a pointwise override:
every other key reads exactly as before, and no key is removed. -/
theorem claim_C10_frame (log : String → Option ℚ) (todayKey k : String) (m : ℚ)
    (h : k ≠ todayKey) : setTodayMinutes log todayKey m k = log k := by
  simp [setTodayMinutes, h]

/-- Witness for C10 at concrete distinct keys. -/
theorem claim_C10_frame_witness :
    setTodayMinutes (fun _ => none) "2025-01-01" 90 "2025-01-02" = none := by
  have h := claim_C10_frame (fun _ => none) "2025-01-01" "2025-01-02" 90 (by decide)
  simpa using h

/-! ## Date keys (`dateKey`) -/

/-- A calendar date: year, month, day. -/
structure Ymd where
  year : Nat
  month : Nat
  day : Nat
deriving DecidableEq, Repr

/-- An instant as this program observes it: the calendar date of the instant
in UTC (the components `toISOString` renders) and in the local time zone
(the components the `getFullYear`, `getMonth` and `getDate` accessors
render).  The two dates differ for any instant lying within the time-zone
offset of a local midnight. -/
structure JSDate where
  utcDate : Ymd
  localDate : Ymd
deriving DecidableEq, Repr

/-- Zero-padded `YYYY-MM-DD` rendering of a calendar date. -/
def ymdString (x : Ymd) : String :=
  ⟨padTo 4 (natDigits x.year) ++
    '-' :: (padTo 2 (natDigits x.month) ++ '-' :: padTo 2 (natDigits x.day))⟩

/-- The function `dateKey` from the source: `d.toISOString().slice(0, 10)`.  ECMA-262
specifies `toISOString` to render the UTC calendar components, so the key is
the UTC date of the instant. -/
def dateKey (d : JSDate) : String := ymdString d.utcDate

theorem natDigitsAux_irrel : ∀ (n f g : Nat), 1 ≤ f → 1 ≤ g → n < 10 ^ f →
    n < 10 ^ g → natDigitsAux f n = natDigitsAux g n := by
  intro n
  induction n using Nat.strong_induction_on with
  | _ n ih =>
    intro f g hf hg hnf hng
    obtain ⟨f1, rfl⟩ : ∃ f1, f = f1 + 1 := ⟨f - 1, by omega⟩
    obtain ⟨g1, rfl⟩ : ∃ g1, g = g1 + 1 := ⟨g - 1, by omega⟩
    by_cases h10 : n < 10
    · simp [natDigitsAux, h10]
    · have hn10 : 10 ≤ n := by omega
      have hf1 : 1 ≤ f1 := by
        by_contra hc
        have hz : f1 = 0 := by omega
        subst hz
        simp at hnf
        omega
      have hg1 : 1 ≤ g1 := by
        by_contra hc
        have hz : g1 = 0 := by omega
        subst hz
        simp at hng
        omega
      have hdivf : n / 10 < 10 ^ f1 := by
        rw [Nat.div_lt_iff_lt_mul (by omega : 0 < 10)]
        calc n < 10 ^ (f1 + 1) := hnf
          _ = 10 ^ f1 * 10 := by rw [pow_succ]
      have hdivg : n / 10 < 10 ^ g1 := by
        rw [Nat.div_lt_iff_lt_mul (by omega : 0 < 10)]
        calc n < 10 ^ (g1 + 1) := hng
          _ = 10 ^ g1 * 10 := by rw [pow_succ]
      simp only [natDigitsAux, if_neg h10]
      rw [ih (n / 10) (by omega) f1 g1 hf1 hg1 hdivf hdivg]

theorem natDigitsAux_length : ∀ (f n : Nat), n < 10 ^ f →
    (natDigitsAux f n).length ≤ f := by
  intro f
  induction f with
  | zero =>
    intro n h
    simp [natDigitsAux]
  | succ f ih =>
    intro n h
    by_cases h10 : n < 10
    · simp [natDigitsAux, h10]
    · have hdiv : n / 10 < 10 ^ f := by
        rw [Nat.div_lt_iff_lt_mul (by omega : 0 < 10)]
        calc n < 10 ^ (f + 1) := h
          _ = 10 ^ f * 10 := by rw [pow_succ]
      have := ih (n / 10) hdiv
      simp only [natDigitsAux, if_neg h10, List.length_append, List.length_cons,
        List.length_nil]
      omega

theorem natDigits_length_le {n k : Nat} (hk : 1 ≤ k) (h : n < 10 ^ k) :
    (natDigits n).length ≤ k := by
  have hbig : n < 10 ^ (n + 1) :=
    lt_of_lt_of_le (Nat.lt_pow_self (by omega) n)
      (Nat.pow_le_pow_right (by omega) (by omega))
  rw [natDigits, natDigitsAux_irrel n (n + 1) k (by omega) hk hbig h]
  exact natDigitsAux_length k n h

theorem padTo_length {k : Nat} {l : List Char} (h : l.length ≤ k) :
    (padTo k l).length = k := by
  simp only [padTo, List.length_append, List.length_replicate]
  omega

/-- Counterexample to C4 as stated: at the instant 2024-12-31T21:30Z
observed at UTC+03:00 the local calendar date is 2025-01-01 but the UTC
calendar date is 2024-12-31, and `dateKey` yields the UTC date, not the
local one. -/
def newYearEveInstant : JSDate := ⟨⟨2024, 12, 31⟩, ⟨2025, 1, 1⟩⟩

/-- Counterexample theorem for C4: `dateKey` renders the UTC-shifted date,
which differs from the local calendar date at the concrete instant above. -/
theorem claim_C4_counterexample :
    newYearEveInstant.localDate ≠ newYearEveInstant.utcDate ∧
    dateKey newYearEveInstant = "2024-12-31" ∧
    ymdString newYearEveInstant.localDate = "2025-01-01" ∧
    dateKey newYearEveInstant ≠ ymdString newYearEveInstant.localDate := by decide

/-- C4 as amended: `dateKey` returns the ten-character zero-padded
`YYYY-MM-DD` key of the UTC calendar date of the instant (`toISOString` is
UTC), not of the local calendar date. -/
theorem claim_C4_dateKey (d : JSDate) :
    dateKey d = ymdString d.utcDate ∧
    (d.utcDate.year < 10000 → d.utcDate.month < 100 → d.utcDate.day < 100 →
      (dateKey d).length = 10) := by
  refine ⟨rfl, ?_⟩
  intro hy hm hd
  show (ymdString d.utcDate).data.length = 10
  have hly : (padTo 4 (natDigits d.utcDate.year)).length = 4 :=
    padTo_length (natDigits_length_le (by omega) (by omega))
  have hlm : (padTo 2 (natDigits d.utcDate.month)).length = 2 :=
    padTo_length (natDigits_length_le (by omega) (by omega))
  have hld : (padTo 2 (natDigits d.utcDate.day)).length = 2 :=
    padTo_length (natDigits_length_le (by omega) (by omega))
  simp only [ymdString, List.length_append, List.length_cons, hly, hlm, hld]

/-- Witness for C4 as amended, at the same concrete instant. -/
theorem claim_C4_dateKey_witness :
    dateKey newYearEveInstant = ymdString newYearEveInstant.utcDate ∧
    (dateKey newYearEveInstant).length = 10 :=
  ⟨(claim_C4_dateKey newYearEveInstant).1,
    (claim_C4_dateKey newYearEveInstant).2 (by decide) (by decide) (by decide)⟩

end OAA
